import Mathlib

/-!
# Verification of the chunking / metadata core of `responsible-fin-ai`

Shallow embedding of `rag/chunking.py` (`TextChunker.chunk_by_sentences`,
`TextChunker.chunk_by_sections`) and of `vector.py` (`extract_metadata`).

Python strings are modelled as `List Char`; Python `None`/optional values as
`Option`.  The embedding keeps the source's control flow: the regular
expressions appearing in the source (`[.!?]+\s+`, `^\d+\.`, `PPT-(\d+)`,
the month/date pattern, `for\s+([A-Za-z ]+)`) are realised as explicit
character-level scanners with the same leftmost/greedy/backtracking
semantics on those patterns.
-/

namespace FinAI

/-- Convenience: a Python string literal as a character list. -/
def chars (s : String) : List Char := s.toList

/-- Python's `\s` / `str.strip` whitespace class, for the ASCII range
(space, tab, newline, carriage return, vertical tab, form feed). -/
def isPySpace (c : Char) : Bool :=
  c = ' ' || c = '\t' || c = '\n' || c = '\r' || c = Char.ofNat 11 || c = Char.ofNat 12

/-- The sentence delimiters of the regex `[.!?]+` in `chunk_by_sentences`. -/
def isSentencePunct (c : Char) : Bool :=
  c = '.' || c = '!' || c = '?'

/-- Python `str.strip()`: drop leading and trailing whitespace. -/
def pystrip (l : List Char) : List Char :=
  ((l.dropWhile isPySpace).reverse.dropWhile isPySpace).reverse

/-- Python `s[-n:]` for `n ≥ 1`: the suffix of length `min n (length s)`.
(`chunk_by_sentences` only evaluates this slice under `chunk_overlap > 0`.) -/
def lastN (n : Nat) (l : List Char) : List Char :=
  l.drop (l.length - n)

/-!
## `re.split(r'[.!?]+\s+', text)`

A left-to-right scanner equivalent to the Python split: a split point is the
leftmost start of a maximal run of `.!?` that is immediately followed by at
least one whitespace character; the punctuation run and the (maximal)
whitespace run after it are consumed as the delimiter.  `acc` is the current
piece (reversed), `pend` is a pending run of punctuation characters
(reversed) that becomes part of the delimiter if whitespace follows and
falls back into the piece otherwise, and `skip` records that we are inside
the `\s+` part of a just-matched delimiter.
-/

def splitSentencesAux : List Char → List Char → List Char → Bool → List (List Char)
  | [], acc, pend, _ => [(pend ++ acc).reverse]
  | c :: rest, acc, pend, skip =>
    if skip then
      if isPySpace c then
        splitSentencesAux rest acc pend true
      else if isSentencePunct c then
        splitSentencesAux rest [] [c] false
      else
        splitSentencesAux rest [c] [] false
    else
      if isSentencePunct c then
        splitSentencesAux rest acc (c :: pend) false
      else if isPySpace c then
        if pend = [] then
          splitSentencesAux rest (c :: acc) [] false
        else
          acc.reverse :: splitSentencesAux rest [] [] true
      else
        splitSentencesAux rest (c :: (pend ++ acc)) [] false

/-- `sentences = re.split(r'[.!?]+\s+', text)` (chunking.py line 26). -/
def splitSentences (text : List Char) : List (List Char) :=
  splitSentencesAux text [] [] false

/-- The sentences the chunking loop actually processes: each raw piece is
stripped and empty results are skipped (chunking.py lines 32-34). -/
def cleanSentences (text : List Char) : List (List Char) :=
  ((splitSentences text).map pystrip).filter (fun s => !s.isEmpty)

/-!
## `TextChunker.chunk_by_sentences` (chunking.py lines 21-55)

State of the loop: the list of closed chunks and the growing
`current_chunk` buffer.  `M` is `self.chunk_size`, `O` is
`self.chunk_overlap`.
-/

/-- One iteration of the `for sentence in sentences` loop. -/
def sentenceStep (M O : Nat) (st : List (List Char) × List Char) (sentenceRaw : List Char) :
    List (List Char) × List Char :=
  let s := pystrip sentenceRaw
  if s = [] then st
  else
    let chunks := st.1
    let cur := st.2
    if cur.length + s.length > M then
      let chunks' := if cur = [] then chunks else chunks ++ [pystrip cur]
      if chunks' ≠ [] ∧ 0 < O then
        (chunks', lastN O cur ++ ' ' :: s)
      else
        (chunks', s)
    else
      (chunks, if cur = [] then s else cur ++ ' ' :: s)

/-- `TextChunker.chunk_by_sentences(self, text)` with
`self.chunk_size = M`, `self.chunk_overlap = O`. -/
def chunkBySentences (M O : Nat) (text : List Char) : List (List Char) :=
  let st := (splitSentences text).foldl (sentenceStep M O) ([], [])
  if st.2 = [] then st.1 else st.1 ++ [pystrip st.2]

/-!
## `TextChunker.chunk_by_sections` (chunking.py lines 57-111)
-/

/-- Python `text.split('\n')`: split on every newline, keeping empty parts. -/
def pySplitLinesAux : List Char → List Char → List (List Char)
  | [], acc => [acc.reverse]
  | c :: rest, acc =>
    if c = '\n' then acc.reverse :: pySplitLinesAux rest []
    else pySplitLinesAux rest (c :: acc)

/-- `lines = text.split('\n')` (chunking.py line 71). -/
def pySplitLines (text : List Char) : List (List Char) :=
  pySplitLinesAux text []

/-- Python `str.lower()` (ASCII case folding, which covers the markers). -/
def pyLower (l : List Char) : List Char := l.map Char.toLower

/-- Python `str.upper()` (ASCII case folding). -/
def pyUpper (l : List Char) : List Char := l.map Char.toUpper

/-- `re.match(r'^\d+\.', line)`: one or more digits followed by a dot at the
start of the line.  (`\d+` is greedy; backtracking cannot help because a
shorter digit run is followed by a digit, not `'.'`.) -/
def numDotPrefix (l : List Char) : Bool :=
  l.takeWhile Char.isDigit ≠ [] && (l.dropWhile Char.isDigit).head? = some '.'

/-- The default `section_markers` list (chunking.py lines 62-65). -/
def defaultMarkers : List (List Char) :=
  [chars "Section", chars "Chapter", chars "Rule", chars "Clause",
   chars "Subsection", chars "Para", chars "Article"]

/-- `any(line.lower().startswith(marker.lower()) for marker in section_markers)
or re.match(r'^\d+\.', line)` (chunking.py lines 79-81). -/
def isHeaderLine (markers : List (List Char)) (line : List Char) : Bool :=
  markers.any (fun m => (pyLower m).isPrefixOf (pyLower line)) || numDotPrefix line

/-- One output record of `chunk_by_sections`:
`{'text': ..., 'section_title': ..., 'chunk_index': ..., 'total_chunks': ...}`. -/
structure SectionChunk where
  text : List Char
  section_title : List Char
  chunk_index : Nat
  total_chunks : Nat
deriving DecidableEq, Repr

/-- The records appended when a section is flushed (chunking.py lines 85-92
and 101-109): `enumerate(section_chunks)` with `total_chunks = len(...)`. -/
def mkSectionRecords (title : List Char) (cs : List (List Char)) : List SectionChunk :=
  cs.enum.map (fun ic => ⟨ic.2, title, ic.1, cs.length⟩)

/-- One iteration of the `for line in lines` loop of `chunk_by_sections`.
State: (records so far, `current_title`, `current_section`). -/
def sectionStep (M O : Nat) (markers : List (List Char))
    (st : List SectionChunk × List Char × List Char) (rawLine : List Char) :
    List SectionChunk × List Char × List Char :=
  let line := pystrip rawLine
  if line = [] then st
  else
    let chunks := st.1
    let title := st.2.1
    let sec := st.2.2
    if isHeaderLine markers line ∧ sec ≠ [] then
      (chunks ++ mkSectionRecords title (chunkBySentences M O sec), line.take 100, line)
    else
      (chunks, title, sec ++ '\n' :: line)

/-- `TextChunker.chunk_by_sections(self, text, section_markers)` with
`self.chunk_size = M`, `self.chunk_overlap = O`; `markers = none` models
passing `section_markers=None` (the defaults are used). -/
def chunkBySections (M O : Nat) (markers : Option (List (List Char))) (text : List Char) :
    List SectionChunk :=
  let ms := markers.getD defaultMarkers
  let st := (pySplitLines text).foldl (sectionStep M O ms) ([], chars "Introduction", [])
  if st.2.2 = [] then st.1
  else st.1 ++ mkSectionRecords st.2.1 (chunkBySentences M O st.2.2)

/-!
## `extract_metadata` (vector.py lines 14-82)

The Python function receives a `pathlib.Path`; the embedding receives the
only two components it reads: `file_path.parent.name` (`folder`) and
`file_path.name` (`name`).  `file_path.stem` is recomputed from `name`
by `pathlib`'s rule.
-/

/-- The metadata dictionary built by `extract_metadata`: it always holds
exactly these eight keys. -/
structure Metadata where
  source : List Char
  category : List Char
  topic : List Char
  audience : List Char
  ppt_id : Option Nat
  date : Option (List Char)
  filename : List Char
  page_number : Option Nat
deriving DecidableEq, Repr

/-- `pathlib.PurePath.stem`: the final component without its suffix; the
suffix is `name[i:]` for `i` the last index of `'.'` provided
`0 < i < len(name) - 1`. -/
def pyStem (name : List Char) : List Char :=
  if '.' ∈ name then
    let i := name.length - 1 - name.reverse.findIdx (· = '.')
    if 0 < i ∧ i < name.length - 1 then name.take i else name
  else name

/-- Python single-character `str.replace`. -/
def replAll (a b : Char) (l : List Char) : List Char :=
  l.map (fun c => if c = a then b else c)

/-- Python `needle in haystack` substring test. -/
def containsSub (n : List Char) : List Char → Bool
  | [] => n.isEmpty
  | c :: t => n.isPrefixOf (c :: t) || containsSub n t

/-- Case-insensitive prefix test (`re` with `re.IGNORECASE`, or
`s.upper().startswith(p)` for an upper-case `p`). -/
def ciPrefixOf (p l : List Char) : Bool :=
  (pyLower p).isPrefixOf (pyLower l)

/-- Digit-string to number, as `int()` on a `\d+` match. -/
def digitsToNat (ds : List Char) : Nat :=
  ds.foldl (fun n c => 10 * n + (c.toNat - '0'.toNat)) 0

/-- `re.match(r"PPT-(\d+)", filename, re.IGNORECASE)` then `int(group(1))`:
anchored at the start; the captured group is the maximal digit run after
`PPT-` (nothing follows the group, so greedy = maximal). -/
def pptIdOf (name : List Char) : Option Nat :=
  if ciPrefixOf (chars "PPT-") name then
    let ds := (name.drop 4).takeWhile Char.isDigit
    if ds = [] then none else some (digitsToNat ds)
  else none

/-- ASCII letter test: `[a-z]` under `re.IGNORECASE`. -/
def isAsciiLetter (c : Char) : Bool :=
  ('a' ≤ c && c ≤ 'z') || ('A' ≤ c && c ≤ 'Z')

/-- The twelve month alternatives of the date pattern, in pattern order. -/
def monthNames : List (List Char) :=
  [chars "Jan", chars "Feb", chars "Mar", chars "Apr", chars "May", chars "Jun",
   chars "Jul", chars "Aug", chars "Sep", chars "Oct", chars "Nov", chars "Dec"]

/-- Attempt of `(Jan|...|Dec)[a-z]*[ _-]?\d{2,4}` (with `re.IGNORECASE`) at
the head of `l`, returning the matched text (`group(0)`).  The character
classes `[a-z]` (case-insensitive), `[ _-]` and `\d` are disjoint, so the
greedy scans below realise the backtracking semantics exactly: a failed
`\d{2,4}` cannot be saved by shrinking the earlier parts. -/
def dateMatchAt (l : List Char) : Option (List Char) :=
  if monthNames.any (fun m => ciPrefixOf m l) && 3 ≤ l.length then
    let r1 := l.drop 3
    let letters := r1.takeWhile isAsciiLetter
    let r2 := r1.dropWhile isAsciiLetter
    let sep := match r2.head? with
      | some c => if c = ' ' || c = '_' || c = '-' then [c] else []
      | none => []
    let r3 := r2.drop sep.length
    let ds := r3.takeWhile Char.isDigit
    if 2 ≤ ds.length then some (l.take 3 ++ letters ++ sep ++ ds.take 4)
    else none
  else none

/-- `re.search` of the date pattern: leftmost match. -/
def searchDate : List Char → Option (List Char)
  | [] => none
  | c :: rest =>
    match dateMatchAt (c :: rest) with
    | some g => some g
    | none => searchDate rest

/-- The character class `[A-Za-z ]`. -/
def isLetterOrSpace (c : Char) : Bool :=
  isAsciiLetter c || c = ' '

/-- Backtracking over `\s+` of `for\s+([A-Za-z ]+)`: try consuming `k`
whitespace characters of the maximal run `W` (from `k = |W|` downwards,
`k ≥ 1`); the group is then the maximal `[A-Za-z ]` run at that point. -/
def audienceTryWs (W rest : List Char) : Nat → Option (List Char)
  | 0 => none
  | k + 1 =>
    let g := (W.drop (k + 1) ++ rest).takeWhile isLetterOrSpace
    if g = [] then audienceTryWs W rest k else some g

/-- Attempt of `\s+([A-Za-z ]+)` at the head of `l` (after a matched
`for`), returning the group. -/
def audienceTailMatch (l : List Char) : Option (List Char) :=
  let W := l.takeWhile isPySpace
  if W = [] then none
  else audienceTryWs W (l.dropWhile isPySpace) W.length

/-- `re.search(r"for\s+([A-Za-z ]+)", filename, re.IGNORECASE)`, returning
`group(1)`. -/
def searchAudience : List Char → Option (List Char)
  | [] => none
  | c :: rest =>
    if ciPrefixOf (chars "for") (c :: rest) then
      match audienceTailMatch ((c :: rest).drop 3) with
      | some g => some g
      | none => searchAudience rest
    else searchAudience rest

/-- The default metadata dictionary (vector.py lines 22-31). -/
def defaultMetadata (folder_raw name : List Char) : Metadata :=
  { source := pyUpper folder_raw
    category := chars "Other"
    topic := replAll '-' ' ' (replAll '_' ' ' (pyStem name))
    audience := chars "General"
    ppt_id := none
    date := none
    filename := name
    page_number := none }

/-- `extract_metadata(file_path)` (vector.py lines 14-82), taking
`folder_raw = file_path.parent.name` and `name = file_path.name`. -/
def extract_metadata (folder_raw name : List Char) : Metadata :=
  let folder := pyUpper folder_raw
  let base := defaultMetadata folder_raw name
  if folder = chars "RBI" then
    if containsSub (chars "FINANCIAL LITERACY") (pyUpper name) then
      let md := { base with category := chars "Literacy" }
      match searchAudience name with
      | some g => { md with audience := pystrip g }
      | none => md
    else if containsSub (chars "Financing needs") name then
      { base with category := chars "Guide",
                  topic := chars "Financing Needs of Micro and Small Enterprises" }
    else base
  else if folder = chars "SEBI" then
    if ciPrefixOf (chars "PPT-") name then
      { base with category := chars "PPT", ppt_id := pptIdOf name,
                  date := searchDate name }
    else if containsSub (chars "Mutual-Fund") name ||
            containsSub (chars "beginners") (pyLower name) then
      let md := { base with category := chars "Guide" }
      if containsSub (chars "Beginners") name then { md with audience := chars "Beginners" }
      else if containsSub (chars "Advance") name then { md with audience := chars "Advanced" }
      else if containsSub (chars "intermediate") (pyLower name) then
        { md with audience := chars "Intermediate" }
      else md
    else if containsSub (chars "Booklet") name then { base with category := chars "Booklet" }
    else if containsSub (chars "brochure") (pyLower name) then
      { base with category := chars "Brochure" }
    else base
  else if folder = chars "AMFI" then
    if containsSub (chars "Strategy") name then { base with category := chars "Report" }
    else if containsSub (chars "NAVAll") name then { base with category := chars "Data" }
    else base
  else base

/-!
## Derived notions used in the statements
-/

/-- The first character, if any, is not whitespace. -/
def noLeadSpace (l : List Char) : Prop :=
  ∀ c, l.head? = some c → isPySpace c = false

/-- The last character, if any, is not whitespace. -/
def noTrailSpace (l : List Char) : Prop :=
  ∀ c, l.getLast? = some c → isPySpace c = false

/-- Join a group of sentences with single spaces, as the chunk buffer does. -/
def joinSp : List (List Char) → List Char
  | [] => []
  | [s] => s
  | s :: g => s ++ ' ' :: joinSp g

/-- A chunk as assembled by the loop: an injected overlap prefix `p`
followed by the space-join of a group `g` of sentences. -/
def overlapGroup (p : List Char) (g : List (List Char)) : List Char :=
  p ++ joinSp g

/-- The overlap relation that actually links two consecutive chunks: some
nonempty prefix of the later chunk, of at most `O` characters, equals the
suffix of the earlier chunk of the same length. -/
def overlapRel (O : Nat) (a b : List Char) : Prop :=
  ∃ k, 1 ≤ k ∧ k ≤ O ∧ k ≤ a.length ∧ b.take k = lastN k a

/-- The non-blank stripped lines of a text (what the `chunk_by_sections`
loop actually looks at). -/
def cleanLines (text : List Char) : List (List Char) :=
  ((pySplitLines text).map pystrip).filter (fun l => !l.isEmpty)

/-- The body accumulated by `chunk_by_sections` when no line is a heading:
`current_section` after the loop, i.e. `"\n" + line` appended per
non-blank line. -/
def introBody (text : List Char) : List Char :=
  (cleanLines text).foldl (fun b l => b ++ '\n' :: l) []

/-- Concatenation of per-section record blocks: each block is one section's
records, enumerated `0 .. total_chunks - 1` under one title. -/
def sectionBlocks (bs : List (List Char × List (List Char))) : List SectionChunk :=
  (bs.map (fun b => mkSectionRecords b.1 b.2)).flatten

/-- Invariant of the `chunk_by_sentences` loop used for the overlap
property: closed chunks are pairwise linked by `overlapRel`, and the
open buffer (when chunks exist) is linked to the last closed chunk. -/
def ovInv (O : Nat) (st : List (List Char) × List Char) : Prop :=
  List.Chain' (overlapRel O) st.1 ∧
  (st.2 = [] → st.1 = []) ∧
  (st.2 ≠ [] → noTrailSpace st.2 ∧
    ∀ L, st.1.getLast? = some L → overlapRel O L (pystrip st.2))

/-- A group of well-formed (stripped, nonempty) sentences. -/
def sentencesOK (g : List (List Char)) : Prop :=
  ∀ s ∈ g, s ≠ [] ∧ noLeadSpace s ∧ noTrailSpace s

/-- Shape of an injected overlap span: empty (first chunk) or an overlap
window followed by the joining space. -/
def prefixOK (p : List Char) : Prop :=
  p = [] ∨ ∃ t, p = t ++ [' '] ∧ t ≠ [] ∧ noTrailSpace t

/-- Invariant of the `chunk_by_sentences` loop used for the
reconstruction property: the closed chunks decompose into overlap spans
plus space-joined groups of the consumed sentences, and the open buffer is
the current span plus the current group. -/
def grpInv (consumed : List (List Char)) (st : List (List Char) × List Char) : Prop :=
  ∃ ps gs pcur gcur,
    st.1 = List.zipWith overlapGroup ps gs ∧
    ps.length = gs.length ∧
    (ps.head? = none ∨ ps.head? = some []) ∧
    (∀ g ∈ gs, g ≠ [] ∧ sentencesOK g) ∧
    gs.flatten ++ gcur = consumed ∧
    st.2 = pcur ++ joinSp gcur ∧
    sentencesOK gcur ∧
    (gcur = [] → pcur = [] ∧ ps = [] ∧ gs = []) ∧
    (pcur ≠ [] → ps ≠ []) ∧
    prefixOK pcur

/-!
## Basic lemmas about `pystrip`
-/

lemma getLast?_of_suffix {l₁ l₂ : List Char} (h : l₁ <:+ l₂) (hne : l₁ ≠ []) :
    l₂.getLast? = l₁.getLast? := by
  obtain ⟨t, rfl⟩ := h
  exact List.getLast?_append_of_ne_nil t hne

lemma dropWhile_isSuffix (p : Char → Bool) (l : List Char) : l.dropWhile p <:+ l :=
  ⟨l.takeWhile p, List.takeWhile_append_dropWhile p l⟩

lemma pystrip_length_le (l : List Char) : (pystrip l).length ≤ l.length := by
  have h1 : (l.dropWhile isPySpace).length ≤ l.length :=
    (dropWhile_isSuffix isPySpace l).length_le
  have h2 : ((l.dropWhile isPySpace).reverse.dropWhile isPySpace).length ≤
      (l.dropWhile isPySpace).reverse.length :=
    (dropWhile_isSuffix isPySpace _).length_le
  simp only [pystrip, List.length_reverse] at *
  omega

lemma pystrip_eq_nil_iff {l : List Char} :
    pystrip l = [] ↔ ∀ c ∈ l, isPySpace c := by
  simp only [pystrip, List.reverse_eq_nil_iff, List.dropWhile_eq_nil_iff, List.mem_reverse]
  constructor
  · intro h c hc
    rw [← List.takeWhile_append_dropWhile (p := isPySpace) (l := l)] at hc
    rcases List.mem_append.1 hc with hc | hc
    · exact List.mem_takeWhile_imp hc
    · exact h c hc
  · intro h c hc
    exact h c ((List.dropWhile_sublist (l := l) (p := isPySpace)).subset hc)

lemma pystrip_ne_nil_of_mem {l : List Char} {c : Char} (hc : c ∈ l)
    (hsp : isPySpace c = false) : pystrip l ≠ [] := by
  intro h0
  have := pystrip_eq_nil_iff.1 h0 c hc
  rw [this] at hsp
  cases hsp

lemma noTrail_pystrip (l : List Char) : noTrailSpace (pystrip l) := by
  intro c hc
  have h := List.head?_dropWhile_not isPySpace (l.dropWhile isPySpace).reverse
  rw [pystrip, List.getLast?_reverse] at hc
  rw [hc] at h
  exact h

lemma noLead_pystrip (l : List Char) : noLeadSpace (pystrip l) := by
  intro c hc
  rw [pystrip, List.head?_reverse] at hc
  have hne : (l.dropWhile isPySpace).reverse.dropWhile isPySpace ≠ [] := by
    intro h0
    rw [h0] at hc
    cases hc
  rw [← getLast?_of_suffix (dropWhile_isSuffix isPySpace _) hne, List.getLast?_reverse] at hc
  have h := List.head?_dropWhile_not isPySpace l
  rw [hc] at h
  exact h

lemma pystrip_eq_dropWhile {l : List Char} (h : noTrailSpace l) :
    pystrip l = l.dropWhile isPySpace := by
  rw [pystrip]
  rcases hrev : (l.dropWhile isPySpace).reverse with _ | ⟨c, t⟩
  · have h0 : l.dropWhile isPySpace = [] := by
      have := congrArg List.reverse hrev
      simpa using this
    simp [h0]
  · have hne : l.dropWhile isPySpace ≠ [] := by
      intro h0
      rw [h0] at hrev
      cases hrev
    have h1 : (l.dropWhile isPySpace).getLast? = some c := by
      rw [← List.head?_reverse, hrev]
      rfl
    have hc : isPySpace c = false := by
      apply h
      rw [getLast?_of_suffix (dropWhile_isSuffix isPySpace l) hne]
      exact h1
    have hneg : ¬ (isPySpace c = true) := by simp [hc]
    have h2 : (c :: t).dropWhile isPySpace = c :: t := List.dropWhile_cons_of_neg hneg
    rw [h2, ← hrev, List.reverse_reverse]

lemma dropWhile_eq_self_of_noLead {l : List Char} (h : noLeadSpace l) :
    l.dropWhile isPySpace = l := by
  cases l with
  | nil => rfl
  | cons c t => exact List.dropWhile_cons_of_neg (by simp [h c rfl])

lemma pystrip_eq_self {l : List Char} (h1 : noLeadSpace l) (h2 : noTrailSpace l) :
    pystrip l = l := by
  rw [pystrip_eq_dropWhile h2, dropWhile_eq_self_of_noLead h1]

lemma noTrail_append {u v : List Char} (hv : v ≠ []) (h : noTrailSpace v) :
    noTrailSpace (u ++ v) := by
  intro c hc
  apply h
  rw [← List.getLast?_append_of_ne_nil u hv]
  exact hc

lemma dropWhile_ne_nil_of_noTrail {l : List Char} (hne : l ≠ []) (h : noTrailSpace l) :
    l.dropWhile isPySpace ≠ [] := by
  intro h0
  have hall := List.dropWhile_eq_nil_iff.1 h0
  have h1 : isPySpace (l.getLast hne) = false := h _ (List.getLast?_eq_getLast l hne)
  have h2 := hall _ (List.getLast_mem hne)
  rw [h1] at h2
  cases h2

/-!
## Lemmas about the sentence splitter
-/

lemma splitAux_nil (acc pend : List Char) (skip : Bool) :
    splitSentencesAux [] acc pend skip = [(pend ++ acc).reverse] := rfl

lemma splitAux_skip_space {c : Char} (rest acc pend : List Char) (h : isPySpace c = true) :
    splitSentencesAux (c :: rest) acc pend true = splitSentencesAux rest acc pend true := by
  simp [splitSentencesAux, h]

lemma splitAux_skip_punct {c : Char} (rest acc pend : List Char) (h1 : isPySpace c = false)
    (h2 : isSentencePunct c = true) :
    splitSentencesAux (c :: rest) acc pend true = splitSentencesAux rest [] [c] false := by
  simp [splitSentencesAux, h1, h2]

lemma splitAux_skip_other {c : Char} (rest acc pend : List Char) (h1 : isPySpace c = false)
    (h2 : isSentencePunct c = false) :
    splitSentencesAux (c :: rest) acc pend true = splitSentencesAux rest [c] [] false := by
  simp [splitSentencesAux, h1, h2]

lemma splitAux_punct {c : Char} (rest acc pend : List Char) (h : isSentencePunct c = true) :
    splitSentencesAux (c :: rest) acc pend false =
      splitSentencesAux rest acc (c :: pend) false := by
  simp [splitSentencesAux, h]

lemma splitAux_space_nopend {c : Char} (rest acc : List Char) (h1 : isSentencePunct c = false)
    (h2 : isPySpace c = true) :
    splitSentencesAux (c :: rest) acc [] false = splitSentencesAux rest (c :: acc) [] false := by
  simp [splitSentencesAux, h1, h2]

lemma splitAux_space_pend {c : Char} (rest acc pend : List Char) (h1 : isSentencePunct c = false)
    (h2 : isPySpace c = true) (h3 : pend ≠ []) :
    splitSentencesAux (c :: rest) acc pend false =
      acc.reverse :: splitSentencesAux rest [] [] true := by
  simp [splitSentencesAux, h1, h2, h3]

lemma splitAux_other {c : Char} (rest acc pend : List Char) (h1 : isSentencePunct c = false)
    (h2 : isPySpace c = false) :
    splitSentencesAux (c :: rest) acc pend false =
      splitSentencesAux rest (c :: (pend ++ acc)) [] false := by
  simp [splitSentencesAux, h1, h2]

lemma space_not_punct {d : Char} (hd : isPySpace d = true) : isSentencePunct d = false := by
  simp only [isPySpace, Bool.or_eq_true, decide_eq_true_eq] at hd
  rcases hd with ((((rfl | rfl) | rfl) | rfl) | rfl) | rfl <;> rfl

lemma splitAux_last_mem :
    ∀ (l acc pend : List Char) (skip : Bool) (c : Char),
      l.getLast? = some c → isPySpace c = false →
      ∃ p ∈ splitSentencesAux l acc pend skip, c ∈ p := by
  intro l
  induction l with
  | nil =>
    intro acc pend skip c hc hsp
    cases hc
  | cons d rest ih =>
    intro acc pend skip c hc hsp
    cases rest with
    | nil =>
      have hdc : d = c := by simpa using hc
      subst hdc
      cases skip with
      | true =>
        by_cases hp : isSentencePunct d = true
        · rw [splitAux_skip_punct [] acc pend hsp hp, splitAux_nil]
          exact ⟨[d], by simp, by simp⟩
        · rw [splitAux_skip_other [] acc pend hsp (by simpa using hp), splitAux_nil]
          exact ⟨[d], by simp, by simp⟩
      | false =>
        by_cases hp : isSentencePunct d = true
        · rw [splitAux_punct [] acc pend hp, splitAux_nil]
          exact ⟨_, List.mem_singleton_self _, by simp⟩
        · rw [splitAux_other [] acc pend (by simpa using hp) hsp, splitAux_nil]
          exact ⟨_, List.mem_singleton_self _, by simp⟩
    | cons e rest2 =>
      have hc2 : (e :: rest2).getLast? = some c := by
        rw [← List.getLast?_cons_cons (a := d)]
        exact hc
      cases skip with
      | true =>
        by_cases hs : isPySpace d = true
        · rw [splitAux_skip_space _ acc pend hs]
          exact ih _ _ _ c hc2 hsp
        · by_cases hp : isSentencePunct d = true
          · rw [splitAux_skip_punct _ acc pend (by simpa using hs) hp]
            exact ih _ _ _ c hc2 hsp
          · rw [splitAux_skip_other _ acc pend (by simpa using hs) (by simpa using hp)]
            exact ih _ _ _ c hc2 hsp
      | false =>
        by_cases hp : isSentencePunct d = true
        · rw [splitAux_punct _ acc pend hp]
          exact ih _ _ _ c hc2 hsp
        · by_cases hs : isPySpace d = true
          · by_cases hpend : pend = []
            · subst hpend
              rw [splitAux_space_nopend _ acc (by simpa using hp) hs]
              exact ih _ _ _ c hc2 hsp
            · rw [splitAux_space_pend _ acc pend (by simpa using hp) hs hpend]
              obtain ⟨p, hmem, hcp⟩ := ih [] [] true c hc2 hsp
              exact ⟨p, List.mem_cons_of_mem _ hmem, hcp⟩
          · rw [splitAux_other _ acc pend (by simpa using hp) (by simpa using hs)]
            exact ih _ _ _ c hc2 hsp

lemma splitAux_all_space :
    ∀ (l acc : List Char), (∀ c ∈ l, isPySpace c) →
      splitSentencesAux l acc [] false = [acc.reverse ++ l] := by
  intro l
  induction l with
  | nil =>
    intro acc h
    simp [splitAux_nil]
  | cons d rest ih =>
    intro acc h
    have hd : isPySpace d = true := h d (by simp)
    have hnp : isSentencePunct d = false := space_not_punct hd
    rw [splitAux_space_nopend rest acc hnp hd, ih (d :: acc) (fun c hc => h c (by simp [hc]))]
    simp

lemma splitSentences_all_space {text : List Char} (h : ∀ c ∈ text, isPySpace c) :
    splitSentences text = [text] := by
  rw [splitSentences, splitAux_all_space text [] h]
  simp

lemma cleanSentences_all_space {text : List Char} (h : ∀ c ∈ text, isPySpace c) :
    cleanSentences text = [] := by
  rw [cleanSentences, splitSentences_all_space h]
  simp [pystrip_eq_nil_iff.2 h]

lemma cleanSentences_ne_nil {text : List Char} (hne : text ≠ []) (h : noTrailSpace text) :
    cleanSentences text ≠ [] := by
  have hlast : ∃ c, text.getLast? = some c := by
    cases hl : text.getLast? with
    | none => exact absurd (List.getLast?_eq_none_iff.1 hl) hne
    | some c => exact ⟨c, rfl⟩
  obtain ⟨c, hc⟩ := hlast
  have hsp := h c hc
  obtain ⟨p, hp, hcp⟩ := splitAux_last_mem text [] [] false c hc hsp
  intro h0
  have hmem : pystrip p ∈ cleanSentences text := by
    rw [cleanSentences]
    refine List.mem_filter.2 ⟨List.mem_map_of_mem _ hp, ?_⟩
    simpa using pystrip_ne_nil_of_mem hcp hsp
  rw [h0] at hmem
  cases hmem

/-!
## Lemmas about `joinSp`, `lastN` and suffixes
-/

lemma joinSp_cons (s : List Char) (g : List (List Char)) (hg : g ≠ []) :
    joinSp (s :: g) = s ++ ' ' :: joinSp g := by
  cases g with
  | nil => cases hg rfl
  | cons t g' => rfl

lemma joinSp_concat (g : List (List Char)) (s : List Char) (hg : g ≠ []) :
    joinSp (g ++ [s]) = joinSp g ++ ' ' :: s := by
  induction g with
  | nil => cases hg rfl
  | cons t g' ih =>
    cases g' with
    | nil => rfl
    | cons u g'' =>
      rw [List.cons_append, joinSp_cons t _ (by simp), joinSp_cons t (u :: g'') (by simp),
        ih (by simp)]
      simp

lemma joinSp_ne_nil {g : List (List Char)} (hg : g ≠ []) (h : ∀ s ∈ g, s ≠ []) :
    joinSp g ≠ [] := by
  cases g with
  | nil => cases hg rfl
  | cons s g' =>
    cases g' with
    | nil => exact h s (by simp)
    | cons t g'' =>
      rw [joinSp_cons s _ (by simp)]
      simp

lemma noLead_joinSp {g : List (List Char)} (h : ∀ s ∈ g, s ≠ [] ∧ noLeadSpace s) :
    noLeadSpace (joinSp g) := by
  cases g with
  | nil => intro c hc; cases hc
  | cons s g' =>
    have hs := h s (by simp)
    cases g' with
    | nil => exact hs.2
    | cons t g'' =>
      rw [joinSp_cons s _ (by simp)]
      intro c hc
      rcases hsv : s with _ | ⟨a, s'⟩
      · exact absurd hsv hs.1
      · rw [hsv] at hc
        simp only [List.cons_append, List.head?_cons] at hc
        have hac : a = c := by injection hc
        subst hac
        exact hs.2 a (by rw [hsv]; rfl)

lemma noTrail_joinSp {g : List (List Char)} (h : ∀ s ∈ g, s ≠ [] ∧ noTrailSpace s) :
    noTrailSpace (joinSp g) := by
  induction g with
  | nil => intro c hc; cases hc
  | cons s g' ih =>
    have hs := h s (by simp)
    cases g' with
    | nil => exact hs.2
    | cons t g'' =>
      rw [joinSp_cons s _ (by simp)]
      have h' : ∀ x ∈ t :: g'', x ≠ [] ∧ noTrailSpace x := fun x hx => h x (by simp [hx])
      have hne : joinSp (t :: g'') ≠ [] :=
        joinSp_ne_nil (by simp) (fun x hx => (h' x hx).1)
      have h1 : noTrailSpace (' ' :: joinSp (t :: g'')) := by
        have := noTrail_append (u := [' ']) hne (ih h')
        simpa using this
      exact noTrail_append (by simp) h1

lemma lastN_length (n : Nat) (l : List Char) : (lastN n l).length = min n l.length := by
  simp only [lastN, List.length_drop]
  omega

lemma lastN_suffix (n : Nat) (l : List Char) : lastN n l <:+ l :=
  List.drop_suffix _ _

lemma lastN_eq_of_suffix {k : Nat} {t l : List Char} (h : t <:+ l) (hk : t.length = k) :
    lastN k l = t := by
  obtain ⟨u, rfl⟩ := h
  rw [lastN]
  have h1 : (u ++ t).length - k = u.length := by
    simp only [List.length_append]
    omega
  rw [h1, List.drop_left]

lemma dropWhile_suffix_of_suffix {t l : List Char} (h : t <:+ l) :
    t.dropWhile isPySpace <:+ l.dropWhile isPySpace := by
  obtain ⟨u, rfl⟩ := h
  rw [List.dropWhile_append]
  split
  · exact List.suffix_rfl
  · exact (dropWhile_isSuffix _ t).trans (List.suffix_append _ _)

/-!
## Lemmas about the chunking fold
-/

lemma foldl_inv {α β : Type} (f : α → β → α) (P : α → Prop) (Q : β → Prop)
    (hstep : ∀ st s, Q s → P st → P (f st s)) :
    ∀ (ss : List β) (st : α), (∀ s ∈ ss, Q s) → P st → P (ss.foldl f st) := by
  intro ss
  induction ss with
  | nil =>
    intro st _ h
    exact h
  | cons s rest ih =>
    intro st hq h
    exact ih _ (fun x hx => hq x (by simp [hx])) (hstep st s (hq s (by simp)) h)

lemma sentenceStep_eq (M O : Nat) (chunks : List (List Char)) (cur sRaw : List Char) :
    sentenceStep M O (chunks, cur) sRaw =
      if pystrip sRaw = [] then (chunks, cur)
      else if cur.length + (pystrip sRaw).length > M then
        if (if cur = [] then chunks else chunks ++ [pystrip cur]) ≠ [] ∧ 0 < O then
          (if cur = [] then chunks else chunks ++ [pystrip cur],
           lastN O cur ++ ' ' :: pystrip sRaw)
        else
          (if cur = [] then chunks else chunks ++ [pystrip cur], pystrip sRaw)
      else (chunks, if cur = [] then pystrip sRaw else cur ++ ' ' :: pystrip sRaw) := by
  simp only [sentenceStep]

lemma chunkBySentences_eq (M O : Nat) (text : List Char) :
    chunkBySentences M O text =
      if ((splitSentences text).foldl (sentenceStep M O) ([], [])).2 = [] then
        ((splitSentences text).foldl (sentenceStep M O) ([], [])).1
      else
        ((splitSentences text).foldl (sentenceStep M O) ([], [])).1 ++
          [pystrip ((splitSentences text).foldl (sentenceStep M O) ([], [])).2] := by
  simp only [chunkBySentences]

lemma sentenceStep_cur_ne {M O : Nat} {st : List (List Char) × List Char} {s : List Char}
    (h : st.2 ≠ [] ∨ pystrip s ≠ []) : (sentenceStep M O st s).2 ≠ [] := by
  obtain ⟨chunks, cur⟩ := st
  rw [sentenceStep_eq]
  by_cases h1 : pystrip s = []
  · rw [if_pos h1]
    rcases h with h | h
    · exact h
    · exact absurd h1 h
  · rw [if_neg h1]
    split_ifs <;> simp [h1]

lemma foldl_cur_ne {M O : Nat} :
    ∀ (ss : List (List Char)) (st : List (List Char) × List Char),
      st.2 ≠ [] → ((ss.foldl (sentenceStep M O) st)).2 ≠ [] := by
  intro ss
  induction ss with
  | nil =>
    intro st h
    exact h
  | cons s rest ih =>
    intro st h
    exact ih _ (sentenceStep_cur_ne (Or.inl h))

lemma foldl_cur_ne_of_mem {M O : Nat} :
    ∀ (ss : List (List Char)) (st : List (List Char) × List Char),
      (∃ s ∈ ss, pystrip s ≠ []) → ((ss.foldl (sentenceStep M O) st)).2 ≠ [] := by
  intro ss
  induction ss with
  | nil =>
    intro st h
    obtain ⟨s, hs, _⟩ := h
    cases hs
  | cons s rest ih =>
    intro st h
    obtain ⟨x, hx, hxs⟩ := h
    rcases List.mem_cons.1 hx with rfl | hx2
    · exact foldl_cur_ne rest _ (sentenceStep_cur_ne (Or.inr hxs))
    · exact ih _ ⟨x, hx2, hxs⟩

lemma chunkBySentences_ne_nil {M O : Nat} {text : List Char}
    (h : cleanSentences text ≠ []) : chunkBySentences M O text ≠ [] := by
  have hex : ∃ s ∈ splitSentences text, pystrip s ≠ [] := by
    rcases h0 : cleanSentences text with _ | ⟨x, rest⟩
    · exact absurd h0 h
    · have hx : x ∈ cleanSentences text := by
        rw [h0]
        simp
      rw [cleanSentences] at hx
      obtain ⟨hx1, hx2⟩ := List.mem_filter.1 hx
      obtain ⟨s, hs, rfl⟩ := List.mem_map.1 hx1
      exact ⟨s, hs, by simpa using hx2⟩
  have h2 := foldl_cur_ne_of_mem (M := M) (O := O) (splitSentences text) ([], []) hex
  rw [chunkBySentences_eq, if_neg h2]
  simp

lemma chunkBySentences_all_space {M O : Nat} {text : List Char}
    (h : ∀ c ∈ text, isPySpace c) : chunkBySentences M O text = [] := by
  have h1 : pystrip text = [] := pystrip_eq_nil_iff.2 h
  rw [chunkBySentences_eq, splitSentences_all_space h]
  simp [sentenceStep_eq, h1]

lemma sentenceStep_len_inv {M O L : Nat} {st : List (List Char) × List Char} {s : List Char}
    (hq : (pystrip s).length ≤ L)
    (h : (∀ c ∈ st.1, c.length ≤ max (M + 1) (O + 1 + L)) ∧
         st.2.length ≤ max (M + 1) (O + 1 + L)) :
    (∀ c ∈ (sentenceStep M O st s).1, c.length ≤ max (M + 1) (O + 1 + L)) ∧
      (sentenceStep M O st s).2.length ≤ max (M + 1) (O + 1 + L) := by
  obtain ⟨chunks, cur⟩ := st
  obtain ⟨hchunks, hcur⟩ := h
  have hB1 : M + 1 ≤ max (M + 1) (O + 1 + L) := le_max_left _ _
  have hB2 : O + 1 + L ≤ max (M + 1) (O + 1 + L) := le_max_right _ _
  have hl : (lastN O cur).length ≤ O := by
    rw [lastN_length]
    exact min_le_left _ _
  have hlast : (lastN O cur ++ ' ' :: pystrip s).length ≤ max (M + 1) (O + 1 + L) := by
    simp only [List.length_append, List.length_cons]
    omega
  have hshort : (pystrip s).length ≤ max (M + 1) (O + 1 + L) := by omega
  have hnew2 : ∀ c ∈ chunks ++ [pystrip cur], c.length ≤ max (M + 1) (O + 1 + L) := by
    intro c hc
    rcases List.mem_append.1 hc with hc | hc
    · exact hchunks c hc
    · rw [List.mem_singleton.1 hc]
      exact le_trans (pystrip_length_le cur) hcur
  have hcat : (cur ++ ' ' :: pystrip s).length ≤ max (M + 1) (O + 1 + L) ∨
      ¬ (cur.length + (pystrip s).length ≤ M) := by
    by_cases hM : cur.length + (pystrip s).length ≤ M
    · left
      simp only [List.length_append, List.length_cons]
      omega
    · right
      exact hM
  rw [sentenceStep_eq]
  by_cases h1 : pystrip s = []
  · rw [if_pos h1]
    exact ⟨hchunks, hcur⟩
  · rw [if_neg h1]
    by_cases h2 : cur.length + (pystrip s).length > M
    · rw [if_pos h2]
      split_ifs with h3 h4 h5
      · exact ⟨hchunks, hlast⟩
      · exact ⟨hchunks, hshort⟩
      · exact ⟨hnew2, hlast⟩
      · exact ⟨hnew2, hshort⟩
    · rw [if_neg h2]
      rcases hcat with hcat | hcat
      · split_ifs with h3
        · exact ⟨hchunks, hshort⟩
        · exact ⟨hchunks, hcat⟩
      · exact absurd (by omega) hcat

/-!
## Lemmas about `chunk_by_sections`
-/

lemma sectionStep_eq (M O : Nat) (ms : List (List Char)) (chunks : List SectionChunk)
    (title sec rawLine : List Char) :
    sectionStep M O ms (chunks, title, sec) rawLine =
      if pystrip rawLine = [] then (chunks, title, sec)
      else if isHeaderLine ms (pystrip rawLine) ∧ sec ≠ [] then
        (chunks ++ mkSectionRecords title (chunkBySentences M O sec),
         (pystrip rawLine).take 100, pystrip rawLine)
      else (chunks, title, sec ++ '\n' :: pystrip rawLine) := by
  simp only [sectionStep]

lemma chunkBySections_eq (M O : Nat) (markers : Option (List (List Char))) (text : List Char) :
    chunkBySections M O markers text =
      if ((pySplitLines text).foldl (sectionStep M O (markers.getD defaultMarkers))
          ([], chars "Introduction", [])).2.2 = [] then
        ((pySplitLines text).foldl (sectionStep M O (markers.getD defaultMarkers))
          ([], chars "Introduction", [])).1
      else
        ((pySplitLines text).foldl (sectionStep M O (markers.getD defaultMarkers))
          ([], chars "Introduction", [])).1 ++
          mkSectionRecords
            ((pySplitLines text).foldl (sectionStep M O (markers.getD defaultMarkers))
              ([], chars "Introduction", [])).2.1
            (chunkBySentences M O
              ((pySplitLines text).foldl (sectionStep M O (markers.getD defaultMarkers))
                ([], chars "Introduction", [])).2.2) := by
  simp only [chunkBySections]

lemma sectionFold_no_header {M O : Nat} {ms : List (List Char)} :
    ∀ (rawLines : List (List Char)) (chunks : List SectionChunk) (title sec : List Char),
      (∀ l ∈ rawLines, isHeaderLine ms (pystrip l) = false) →
      rawLines.foldl (sectionStep M O ms) (chunks, title, sec) =
        (chunks, title,
         ((rawLines.map pystrip).filter (fun l => !l.isEmpty)).foldl
           (fun b l => b ++ '\n' :: l) sec) := by
  intro rawLines
  induction rawLines with
  | nil =>
    intro chunks title sec h
    rfl
  | cons r rest ih =>
    intro chunks title sec h
    rw [List.foldl_cons, sectionStep_eq]
    by_cases h1 : pystrip r = []
    · rw [if_pos h1, ih _ _ _ (fun l hl => h l (by simp [hl]))]
      simp [h1]
    · have hh := h r (by simp)
      rw [if_neg h1, if_neg (by simp [hh]), ih _ _ _ (fun l hl => h l (by simp [hl]))]
      have h2 : ((r :: rest).map pystrip).filter (fun l => !l.isEmpty) =
          pystrip r :: (rest.map pystrip).filter (fun l => !l.isEmpty) := by
        simp [List.filter_cons, h1]
      rw [h2, List.foldl_cons]

lemma cleanLines_mem {text : List Char} {l : List Char} (hl : l ∈ cleanLines text) :
    l ≠ [] ∧ noLeadSpace l ∧ noTrailSpace l := by
  rw [cleanLines] at hl
  obtain ⟨h1, h2⟩ := List.mem_filter.1 hl
  obtain ⟨r, _, rfl⟩ := List.mem_map.1 h1
  exact ⟨by simpa using h2, noLead_pystrip r, noTrail_pystrip r⟩

lemma foldl_body_ne :
    ∀ (ls : List (List Char)) (b : List Char), (b ≠ [] ∨ ls ≠ []) →
      ls.foldl (fun b l => b ++ '\n' :: l) b ≠ [] := by
  intro ls
  induction ls with
  | nil =>
    intro b h
    rcases h with h | h
    · exact h
    · exact absurd rfl h
  | cons l rest ih =>
    intro b h
    rw [List.foldl_cons]
    exact ih _ (Or.inl (by simp))

lemma foldl_body_noTrail :
    ∀ (ls : List (List Char)) (b : List Char),
      (∀ l ∈ ls, l ≠ [] ∧ noTrailSpace l) → noTrailSpace b →
      noTrailSpace (ls.foldl (fun b l => b ++ '\n' :: l) b) := by
  intro ls
  induction ls with
  | nil =>
    intro b _ hb
    exact hb
  | cons l rest ih =>
    intro b h hb
    rw [List.foldl_cons]
    refine ih _ (fun x hx => h x (by simp [hx])) ?_
    have hl := h l (by simp)
    have hnl : noTrailSpace ('\n' :: l) := by
      have := noTrail_append (u := ['\n']) hl.1 hl.2
      simpa using this
    exact noTrail_append (by simp) hnl

lemma introBody_ne {text : List Char} (h : cleanLines text ≠ []) : introBody text ≠ [] :=
  foldl_body_ne _ [] (Or.inr h)

lemma introBody_noTrail (text : List Char) : noTrailSpace (introBody text) := by
  refine foldl_body_noTrail _ [] (fun l hl => ?_) ?_
  · exact ⟨(cleanLines_mem hl).1, (cleanLines_mem hl).2.2⟩
  · intro c hc
    cases hc

lemma mkSectionRecords_mem {t : List Char} {cs : List (List Char)} {r : SectionChunk}
    (h : r ∈ mkSectionRecords t cs) :
    r.section_title = t ∧ r.total_chunks = cs.length ∧ r.chunk_index < cs.length := by
  rw [mkSectionRecords] at h
  obtain ⟨ic, hic, rfl⟩ := List.mem_map.1 h
  refine ⟨rfl, rfl, ?_⟩
  have h2 := List.mem_enum_iff_getElem?.1 hic
  exact (List.getElem?_eq_some_iff.1 h2).1

lemma mkSectionRecords_length (t : List Char) (cs : List (List Char)) :
    (mkSectionRecords t cs).length = cs.length := by
  simp [mkSectionRecords]

lemma sectionBlocks_append (bs : List (List Char × List (List Char)))
    (b : List Char × List (List Char)) :
    sectionBlocks (bs ++ [b]) = sectionBlocks bs ++ mkSectionRecords b.1 b.2 := by
  simp [sectionBlocks]

lemma blocks_extend {chunks : List SectionChunk} {title : List Char}
    {cs : List (List Char)} {bs : List (List Char × List (List Char))}
    (hbs : ∀ b ∈ bs, b.1.length ≤ 100 ∧ b.2 ≠ []) (hchunks : chunks = sectionBlocks bs)
    (htitle : title.length ≤ 100) :
    ∃ bs', (∀ b ∈ bs', b.1.length ≤ 100 ∧ b.2 ≠ []) ∧
      chunks ++ mkSectionRecords title cs = sectionBlocks bs' := by
  by_cases h3 : cs = []
  · exact ⟨bs, hbs, by simp [h3, mkSectionRecords, hchunks]⟩
  · refine ⟨bs ++ [(title, cs)], ?_, ?_⟩
    · intro b hb
      rcases List.mem_append.1 hb with hb | hb
      · exact hbs b hb
      · rw [List.mem_singleton.1 hb]
        exact ⟨htitle, h3⟩
    · rw [sectionBlocks_append, hchunks]

lemma sectionStep_blocks {M O : Nat} {ms : List (List Char)}
    {st : List SectionChunk × List Char × List Char} {r : List Char}
    (h : (∃ bs, (∀ b ∈ bs, b.1.length ≤ 100 ∧ b.2 ≠ []) ∧ st.1 = sectionBlocks bs) ∧
         st.2.1.length ≤ 100) :
    (∃ bs, (∀ b ∈ bs, b.1.length ≤ 100 ∧ b.2 ≠ []) ∧
        (sectionStep M O ms st r).1 = sectionBlocks bs) ∧
      (sectionStep M O ms st r).2.1.length ≤ 100 := by
  obtain ⟨chunks, title, sec⟩ := st
  obtain ⟨⟨bs, hbs, hchunks⟩, htitle⟩ := h
  rw [sectionStep_eq]
  by_cases h1 : pystrip r = []
  · rw [if_pos h1]
    exact ⟨⟨bs, hbs, hchunks⟩, htitle⟩
  · rw [if_neg h1]
    by_cases h2 : isHeaderLine ms (pystrip r) ∧ sec ≠ []
    · rw [if_pos h2]
      constructor
      · exact blocks_extend hbs hchunks htitle
      · show ((pystrip r).take 100).length ≤ 100
        rw [List.length_take]
        exact min_le_left _ _
    · rw [if_neg h2]
      exact ⟨⟨bs, hbs, hchunks⟩, htitle⟩

lemma chunkBySections_no_header {M O : Nat} {text : List Char}
    (h : ∀ l ∈ pySplitLines text, isHeaderLine defaultMarkers (pystrip l) = false) :
    chunkBySections M O none text =
      if introBody text = [] then []
      else mkSectionRecords (chars "Introduction") (chunkBySentences M O (introBody text)) := by
  have hfold := @sectionFold_no_header M O defaultMarkers
    (pySplitLines text) [] (chars "Introduction") [] h
  rw [chunkBySections_eq]
  simp only [Option.getD_none]
  rw [hfold]
  by_cases hb : introBody text = []
  · have hb' :
        ((([], chars "Introduction",
          ((pySplitLines text).map pystrip).filter (fun l => !l.isEmpty) |>.foldl
            (fun b l => b ++ '\n' :: l) []) :
          List SectionChunk × List Char × List Char)).2.2 = [] := hb
    rw [if_pos hb', if_pos hb]
  · have hb' :
        ¬ ((([], chars "Introduction",
          ((pySplitLines text).map pystrip).filter (fun l => !l.isEmpty) |>.foldl
            (fun b l => b ++ '\n' :: l) []) :
          List SectionChunk × List Char × List Char)).2.2 = [] := hb
    rw [if_neg hb', if_neg hb]
    exact List.nil_append _

/-!
## Lemmas about `extract_metadata`
-/

lemma extract_metadata_default {folder name : List Char}
    (h1 : pyUpper folder ≠ chars "RBI") (h2 : pyUpper folder ≠ chars "SEBI")
    (h3 : pyUpper folder ≠ chars "AMFI") :
    extract_metadata folder name = defaultMetadata folder name := by
  simp only [extract_metadata]
  rw [if_neg h1, if_neg h2, if_neg h3]

lemma extract_metadata_fields (folder name : List Char) :
    (extract_metadata folder name).page_number = none ∧
    (extract_metadata folder name).filename = name ∧
    (extract_metadata folder name).source = pyUpper folder := by
  simp only [extract_metadata]
  split_ifs <;> try split
  all_goals simp [defaultMetadata]

/-!
## The overlap chain invariant
-/

lemma take_append_le {k : Nat} {u v : List Char} (h : k ≤ u.length) :
    (u ++ v).take k = u.take k := by
  rw [List.take_append_eq_append_take, Nat.sub_eq_zero_of_le h, List.take_zero,
    List.append_nil]

lemma chain_extend {O : Nat} {chunks : List (List Char)} {c : List Char}
    (hchain : List.Chain' (overlapRel O) chunks)
    (hlink : ∀ L, chunks.getLast? = some L → overlapRel O L c) :
    List.Chain' (overlapRel O) (chunks ++ [c]) := by
  refine List.Chain'.append hchain (List.chain'_singleton _) ?_
  intro x hx y hy
  rw [Option.mem_def] at hx hy
  have hy' : c = y := by simpa using hy
  subst hy'
  exact hlink x hx

lemma noTrail_space_cons {s : List Char} (hs : s ≠ []) (hsNT : noTrailSpace s) :
    noTrailSpace (' ' :: s) := by
  have := noTrail_append (u := [' ']) hs hsNT
  simpa using this

lemma pystrip_append_sentence {cur : List Char} (hc0 : cur ≠ []) (hNT : noTrailSpace cur)
    {s : List Char} (hs : s ≠ []) (hsNT : noTrailSpace s) :
    pystrip (cur ++ ' ' :: s) = pystrip cur ++ ' ' :: s := by
  have hNT2 : noTrailSpace (cur ++ ' ' :: s) :=
    noTrail_append (by simp) (noTrail_space_cons hs hsNT)
  have hne := dropWhile_ne_nil_of_noTrail hc0 hNT
  rw [pystrip_eq_dropWhile hNT2, List.dropWhile_append, if_neg (by simpa using hne),
    ← pystrip_eq_dropWhile hNT]

lemma extend_link {O : Nat} {L cur : List Char} (hc0 : cur ≠ []) (hNT : noTrailSpace cur)
    {s : List Char} (hs : s ≠ []) (hsNT : noTrailSpace s)
    (h : overlapRel O L (pystrip cur)) :
    overlapRel O L (pystrip (cur ++ ' ' :: s)) := by
  obtain ⟨k, hk1, hk2, hk3, htake⟩ := h
  have hklen : k ≤ (pystrip cur).length := by
    have hlen : ((pystrip cur).take k).length = k := by
      rw [htake, lastN_length, Nat.min_eq_left hk3]
    rw [List.length_take] at hlen
    rcases Nat.le_total k (pystrip cur).length with hkl | hkl
    · exact hkl
    · rw [Nat.min_eq_right hkl] at hlen
      omega
  refine ⟨k, hk1, hk2, hk3, ?_⟩
  rw [pystrip_append_sentence hc0 hNT hs hsNT, take_append_le hklen, htake]

lemma seed_link {O : Nat} (hO : 0 < O) {cur : List Char} (hc0 : cur ≠ [])
    (hNT : noTrailSpace cur) {s : List Char} (hs : s ≠ []) (hsNT : noTrailSpace s) :
    overlapRel O (pystrip cur) (pystrip (lastN O cur ++ ' ' :: s)) := by
  have htlen : (lastN O cur).length = min O cur.length := lastN_length O cur
  have ht_ne : lastN O cur ≠ [] := by
    apply List.ne_nil_of_length_pos
    have h1 : 0 < cur.length := List.length_pos.2 hc0
    rw [htlen]
    omega
  have htsuf : lastN O cur <:+ cur := lastN_suffix O cur
  have htNT : noTrailSpace (lastN O cur) := by
    intro c hc
    apply hNT
    rw [getLast?_of_suffix htsuf ht_ne]
    exact hc
  have ht'_ne : (lastN O cur).dropWhile isPySpace ≠ [] :=
    dropWhile_ne_nil_of_noTrail ht_ne htNT
  have hsp : pystrip (lastN O cur ++ ' ' :: s) =
      (lastN O cur).dropWhile isPySpace ++ ' ' :: s := by
    have hNT2 : noTrailSpace (lastN O cur ++ ' ' :: s) :=
      noTrail_append (by simp) (noTrail_space_cons hs hsNT)
    rw [pystrip_eq_dropWhile hNT2, List.dropWhile_append, if_neg (by simpa using ht'_ne)]
  have hDeq : pystrip cur = cur.dropWhile isPySpace := pystrip_eq_dropWhile hNT
  have ht'D : (lastN O cur).dropWhile isPySpace <:+ cur.dropWhile isPySpace :=
    dropWhile_suffix_of_suffix htsuf
  refine ⟨((lastN O cur).dropWhile isPySpace).length, ?_, ?_, ?_, ?_⟩
  · have h1 : 0 < ((lastN O cur).dropWhile isPySpace).length := List.length_pos.2 ht'_ne
    omega
  · have h1 : ((lastN O cur).dropWhile isPySpace).length ≤ (lastN O cur).length :=
      (dropWhile_isSuffix _ _).length_le
    omega
  · rw [hDeq]
    exact ht'D.length_le
  · rw [hsp, hDeq, List.take_left]
    exact (lastN_eq_of_suffix ht'D rfl).symm

lemma sentenceStep_ovInv {M O : Nat} (hO : 0 < O) {st : List (List Char) × List Char}
    {s : List Char} (h : ovInv O st) : ovInv O (sentenceStep M O st s) := by
  obtain ⟨chunks, cur⟩ := st
  obtain ⟨hchain, hemp, hlink⟩ := h
  rw [sentenceStep_eq]
  by_cases h1 : pystrip s = []
  · rw [if_pos h1]
    exact ⟨hchain, hemp, hlink⟩
  · rw [if_neg h1]
    have hsne : pystrip s ≠ [] := h1
    have hsNT : noTrailSpace (pystrip s) := noTrail_pystrip s
    by_cases hc0 : cur = []
    · subst hc0
      have hch : chunks = [] := hemp rfl
      subst hch
      by_cases h2 : ([] : List Char).length + (pystrip s).length > M
      · rw [if_pos h2, if_pos rfl, if_neg (by simp)]
        exact ⟨List.chain'_nil, fun _ => rfl, fun _ => ⟨hsNT, fun L hL => by simp at hL⟩⟩
      · rw [if_neg h2, if_pos rfl]
        exact ⟨List.chain'_nil, fun _ => rfl, fun _ => ⟨hsNT, fun L hL => by simp at hL⟩⟩
    · have hcur := hlink hc0
      obtain ⟨hNT, hlk⟩ := hcur
      by_cases h2 : cur.length + (pystrip s).length > M
      · rw [if_pos h2, if_neg hc0, if_pos ⟨by simp, hO⟩]
        refine ⟨chain_extend hchain hlk, ?_, ?_⟩
        · intro hh
          simp at hh
        · intro _
          refine ⟨noTrail_append (by simp) (noTrail_space_cons hsne hsNT), ?_⟩
          intro L hL
          have hL' : L = pystrip cur := by
            rw [List.getLast?_concat] at hL
            exact (Option.some_inj.1 hL).symm
          subst hL'
          exact seed_link hO hc0 hNT hsne hsNT
      · rw [if_neg h2, if_neg hc0]
        refine ⟨hchain, ?_, ?_⟩
        · intro hh
          simp at hh
        · intro _
          refine ⟨noTrail_append (by simp) (noTrail_space_cons hsne hsNT), ?_⟩
          intro L hL
          exact extend_link hc0 hNT hsne hsNT (hlk L hL)

lemma foldl_ovInv {M O : Nat} (hO : 0 < O) (ss : List (List Char))
    (st : List (List Char) × List Char) (h : ovInv O st) :
    ovInv O (ss.foldl (sentenceStep M O) st) :=
  foldl_inv _ (ovInv O) (fun _ => True) (fun _ _ _ hst => sentenceStep_ovInv hO hst) ss st
    (fun _ _ => trivial) h

lemma chunkBySentences_chain {M O : Nat} (hO : 0 < O) (text : List Char) :
    List.Chain' (overlapRel O) (chunkBySentences M O text) := by
  have hinv := foldl_ovInv (M := M) hO (splitSentences text) ([], [])
    ⟨List.chain'_nil, fun _ => rfl, fun hne => absurd rfl hne⟩
  obtain ⟨hchain, hemp, hlink⟩ := hinv
  rw [chunkBySentences_eq]
  by_cases h2 : ((splitSentences text).foldl (sentenceStep M O) ([], [])).2 = []
  · rw [if_pos h2]
    exact hchain
  · rw [if_neg h2]
    exact chain_extend hchain (hlink h2).2

/-!
## The group reconstruction invariant
-/

lemma sentencesOK_parts {g : List (List Char)} (h : sentencesOK g) :
    (∀ s ∈ g, s ≠ [] ∧ noLeadSpace s) ∧ (∀ s ∈ g, s ≠ [] ∧ noTrailSpace s) :=
  ⟨fun s hs => ⟨(h s hs).1, (h s hs).2.1⟩, fun s hs => ⟨(h s hs).1, (h s hs).2.2⟩⟩

lemma lastN_ne_nil_noTrail {O : Nat} (hO : 0 < O) {cur : List Char} (hc0 : cur ≠ [])
    (hNT : noTrailSpace cur) : lastN O cur ≠ [] ∧ noTrailSpace (lastN O cur) := by
  have htlen : (lastN O cur).length = min O cur.length := lastN_length O cur
  have ht_ne : lastN O cur ≠ [] := by
    apply List.ne_nil_of_length_pos
    have h1 : 0 < cur.length := List.length_pos.2 hc0
    rw [htlen]
    omega
  refine ⟨ht_ne, ?_⟩
  intro c hc
  apply hNT
  rw [getLast?_of_suffix (lastN_suffix O cur) ht_ne]
  exact hc

lemma pystrip_buffer {pcur : List Char} {gcur : List (List Char)}
    (hp : prefixOK pcur) (hg : sentencesOK gcur) (hgne : gcur ≠ []) :
    pystrip (pcur ++ joinSp gcur) = (pcur.dropWhile isPySpace) ++ joinSp gcur ∧
      prefixOK (pcur.dropWhile isPySpace) ∧ noTrailSpace (pcur ++ joinSp gcur) := by
  have hJNL : noLeadSpace (joinSp gcur) := noLead_joinSp (sentencesOK_parts hg).1
  have hJNT : noTrailSpace (joinSp gcur) := noTrail_joinSp (sentencesOK_parts hg).2
  have hJne : joinSp gcur ≠ [] := joinSp_ne_nil hgne (fun s hs => (hg s hs).1)
  rcases hp with rfl | ⟨t, rfl, htne, htNT⟩
  · refine ⟨?_, Or.inl rfl, ?_⟩
    · simp only [List.dropWhile_nil, List.nil_append]
      exact pystrip_eq_self hJNL hJNT
    · simpa using noTrail_append (u := []) hJne hJNT
  · have hdt : t.dropWhile isPySpace ≠ [] := dropWhile_ne_nil_of_noTrail htne htNT
    have hNT2 : noTrailSpace ((t ++ [' ']) ++ joinSp gcur) := noTrail_append hJne hJNT
    refine ⟨?_, ?_, hNT2⟩
    · rw [pystrip_eq_dropWhile hNT2, List.append_assoc, List.dropWhile_append,
        if_neg (by simpa using hdt), List.dropWhile_append, if_neg (by simpa using hdt),
        List.append_assoc]
    · refine Or.inr ⟨t.dropWhile isPySpace, ?_, hdt, ?_⟩
      · rw [List.dropWhile_append, if_neg (by simpa using hdt)]
      · intro c hc
        apply htNT
        rw [getLast?_of_suffix (dropWhile_isSuffix isPySpace t) hdt]
        exact hc

lemma sentenceStep_grpInv {M O : Nat} {st : List (List Char) × List Char}
    {s : List Char} {consumed : List (List Char)} (h : grpInv consumed st) :
    grpInv (consumed ++ if pystrip s = [] then [] else [pystrip s])
      (sentenceStep M O st s) := by
  obtain ⟨chunks, cur⟩ := st
  obtain ⟨ps, gs, pcur, gcur, e1, e2, e3, e4, e5, e6, e7, e8, e9, e10⟩ := h
  have e1' : chunks = List.zipWith overlapGroup ps gs := e1
  have e6' : cur = pcur ++ joinSp gcur := e6
  rw [sentenceStep_eq]
  by_cases h1 : pystrip s = []
  · rw [if_pos h1, if_pos h1, List.append_nil]
    exact ⟨ps, gs, pcur, gcur, e1, e2, e3, e4, e5, e6, e7, e8, e9, e10⟩
  · rw [if_neg h1, if_neg h1]
    have hsOK : pystrip s ≠ [] ∧ noLeadSpace (pystrip s) ∧ noTrailSpace (pystrip s) :=
      ⟨h1, noLead_pystrip s, noTrail_pystrip s⟩
    by_cases hc0 : cur = []
    · have hg0 : gcur = [] := by
        by_contra hg
        have hne := joinSp_ne_nil hg (fun x hx => (e7 x hx).1)
        rw [hc0] at e6'
        exact hne (List.append_eq_nil.1 e6'.symm).2
      obtain ⟨hp0, hps0, hgs0⟩ := e8 hg0
      have hcons : consumed = [] := by
        rw [← e5, hgs0, hg0]
        rfl
      have hchunks0 : chunks = [] := by
        rw [e1', hps0, hgs0]
        rfl
      subst hc0
      subst hchunks0
      subst hcons
      have hnewInv : grpInv ([] ++ [pystrip s]) ([], pystrip s) := by
        refine ⟨[], [], [], [pystrip s], by simp, rfl, Or.inl rfl, by simp, rfl,
          by simp [joinSp], ?_, ?_, ?_, Or.inl rfl⟩
        · intro x hx
          rw [List.mem_singleton.1 hx]
          exact hsOK
        · intro hx
          simp at hx
        · intro hx
          exact absurd rfl hx
      by_cases h2 : ([] : List Char).length + (pystrip s).length > M
      · rw [if_pos h2, if_pos rfl, if_neg (by simp)]
        exact hnewInv
      · rw [if_neg h2, if_pos rfl]
        exact hnewInv
    · have hgne : gcur ≠ [] := by
        intro hg
        apply hc0
        rw [e6', (e8 hg).1, hg]
        rfl
      by_cases h2 : cur.length + (pystrip s).length > M
      · rw [if_pos h2, if_neg hc0]
        have hbuf := pystrip_buffer e10 e7 hgne
        have hstripcur : pystrip cur = pcur.dropWhile isPySpace ++ joinSp gcur := by
          rw [e6']
          exact hbuf.1
        have hNTcur : noTrailSpace cur := by
          rw [e6']
          exact hbuf.2.2
        have hA : chunks ++ [pystrip cur] =
            List.zipWith overlapGroup (ps ++ [pcur.dropWhile isPySpace]) (gs ++ [gcur]) := by
          rw [List.zipWith_append _ _ _ _ _ e2, ← e1']
          congr 1
          simp [overlapGroup, hstripcur]
        have hB : (ps ++ [pcur.dropWhile isPySpace]).length = (gs ++ [gcur]).length := by
          simp [e2]
        have hC : (ps ++ [pcur.dropWhile isPySpace]).head? = none ∨
            (ps ++ [pcur.dropWhile isPySpace]).head? = some [] := by
          rcases hps0 : ps with _ | ⟨p0, ps'⟩
          · right
            have hpc : pcur = [] := by
              by_contra hne
              exact absurd hps0 (e9 hne)
            simp [hpc]
          · right
            rw [hps0] at e3
            rcases e3 with e3 | e3
            · simp at e3
            · simp only [List.head?_cons] at e3 ⊢
              rw [List.cons_append]
              simpa using e3
        have hD : ∀ g ∈ gs ++ [gcur], g ≠ [] ∧ sentencesOK g := by
          intro g hg
          rcases List.mem_append.1 hg with hg | hg
          · exact e4 g hg
          · rw [List.mem_singleton.1 hg]
            exact ⟨hgne, e7⟩
        have hE : (gs ++ [gcur]).flatten ++ [pystrip s] = consumed ++ [pystrip s] := by
          rw [List.flatten_append, ← e5]
          simp
        by_cases h3 : (chunks ++ [pystrip cur]) ≠ [] ∧ 0 < O
        · rw [if_pos h3]
          have htfacts := lastN_ne_nil_noTrail h3.2 hc0 hNTcur
          refine ⟨ps ++ [pcur.dropWhile isPySpace], gs ++ [gcur],
                  lastN O cur ++ [' '], [pystrip s], hA, hB, hC, hD, hE, ?_, ?_, ?_, ?_, ?_⟩
          · show lastN O cur ++ ' ' :: pystrip s = (lastN O cur ++ [' ']) ++ joinSp [pystrip s]
            simp [joinSp]
          · intro x hx
            rw [List.mem_singleton.1 hx]
            exact hsOK
          · intro hx
            simp at hx
          · intro _
            simp
          · exact Or.inr ⟨lastN O cur, rfl, htfacts.1, htfacts.2⟩
        · rw [if_neg h3]
          refine ⟨ps ++ [pcur.dropWhile isPySpace], gs ++ [gcur], [], [pystrip s],
                  hA, hB, hC, hD, hE, ?_, ?_, ?_, ?_, Or.inl rfl⟩
          · show pystrip s = [] ++ joinSp [pystrip s]
            simp [joinSp]
          · intro x hx
            rw [List.mem_singleton.1 hx]
            exact hsOK
          · intro hx
            simp at hx
          · intro hx
            exact absurd rfl hx
      · rw [if_neg h2, if_neg hc0]
        refine ⟨ps, gs, pcur, gcur ++ [pystrip s], e1, e2, e3, e4, ?_, ?_, ?_, ?_, e9, e10⟩
        · show gs.flatten ++ (gcur ++ [pystrip s]) = consumed ++ [pystrip s]
          rw [← List.append_assoc, e5]
        · show cur ++ ' ' :: pystrip s = pcur ++ joinSp (gcur ++ [pystrip s])
          rw [joinSp_concat gcur (pystrip s) hgne, ← List.append_assoc, ← e6']
        · intro x hx
          rcases List.mem_append.1 hx with hx | hx
          · exact e7 x hx
          · rw [List.mem_singleton.1 hx]
            exact hsOK
        · intro hx
          simp at hx

lemma foldl_grpInv {M O : Nat} :
    ∀ (ss : List (List Char)) (st : List (List Char) × List Char)
      (consumed : List (List Char)), grpInv consumed st →
      grpInv (consumed ++ (ss.map pystrip).filter (fun x => !x.isEmpty))
        (ss.foldl (sentenceStep M O) st) := by
  intro ss
  induction ss with
  | nil =>
    intro st consumed h
    simpa using h
  | cons s rest ih =>
    intro st consumed h
    rw [List.foldl_cons]
    have hstep := sentenceStep_grpInv (M := M) (O := O) (s := s) h
    have hres := ih _ _ hstep
    by_cases h1 : pystrip s = []
    · rw [if_pos h1, List.append_nil] at hres
      have hfe : ((s :: rest).map pystrip).filter (fun x => !x.isEmpty) =
          (rest.map pystrip).filter (fun x => !x.isEmpty) := by
        simp [List.filter_cons, h1]
      rw [hfe]
      exact hres
    · rw [if_neg h1] at hres
      have hfe : ((s :: rest).map pystrip).filter (fun x => !x.isEmpty) =
          pystrip s :: (rest.map pystrip).filter (fun x => !x.isEmpty) := by
        simp [List.filter_cons, h1]
      rw [hfe]
      rw [List.append_assoc] at hres
      simpa using hres

lemma chunkBySentences_groups (M O : Nat) (text : List Char) :
    ∃ ps gs, chunkBySentences M O text = List.zipWith overlapGroup ps gs ∧
      ps.length = gs.length ∧ (ps.head? = none ∨ ps.head? = some []) ∧
      (∀ g ∈ gs, g ≠ []) ∧ gs.flatten = cleanSentences text := by
  have hinit : grpInv [] (([], []) : List (List Char) × List Char) :=
    ⟨[], [], [], [], by simp, rfl, Or.inl rfl, by simp, rfl, rfl,
     fun x hx => absurd hx (List.not_mem_nil x),
     fun _ => ⟨rfl, rfl, rfl⟩, fun hx => absurd rfl hx, Or.inl rfl⟩
  have hinv := foldl_grpInv (M := M) (O := O) (splitSentences text) ([], []) [] hinit
  rw [List.nil_append] at hinv
  obtain ⟨ps, gs, pcur, gcur, e1, e2, e3, e4, e5, e6, e7, e8, e9, e10⟩ := hinv
  have hclean : List.filter (fun x => !x.isEmpty) (List.map pystrip (splitSentences text)) =
      cleanSentences text := rfl
  rw [hclean] at e5
  rw [chunkBySentences_eq]
  by_cases h2 : ((splitSentences text).foldl (sentenceStep M O) ([], [])).2 = []
  · rw [if_pos h2]
    have hg0 : gcur = [] := by
      by_contra hg
      have hne := joinSp_ne_nil hg (fun x hx => (e7 x hx).1)
      rw [h2] at e6
      exact hne (List.append_eq_nil.1 e6.symm).2
    refine ⟨ps, gs, e1, e2, e3, fun g hg => (e4 g hg).1, ?_⟩
    rw [← e5, hg0, List.append_nil]
  · rw [if_neg h2]
    have hgne : gcur ≠ [] := by
      intro hg
      apply h2
      rw [e6, (e8 hg).1, hg]
      rfl
    have hbuf := pystrip_buffer e10 e7 hgne
    have hstripcur :
        pystrip ((splitSentences text).foldl (sentenceStep M O) ([], [])).2 =
          pcur.dropWhile isPySpace ++ joinSp gcur := by
      rw [e6]
      exact hbuf.1
    refine ⟨ps ++ [pcur.dropWhile isPySpace], gs ++ [gcur], ?_, by simp [e2], ?_, ?_, ?_⟩
    · rw [List.zipWith_append _ _ _ _ _ e2, ← e1]
      congr 1
      simp [overlapGroup, hstripcur]
    · rcases hps0 : ps with _ | ⟨p0, ps'⟩
      · right
        have hpc : pcur = [] := by
          by_contra hne
          exact absurd hps0 (e9 hne)
        simp [hpc]
      · right
        rw [hps0] at e3
        rcases e3 with e3 | e3
        · simp at e3
        · simp only [List.head?_cons] at e3 ⊢
          rw [List.cons_append]
          simpa using e3
    · intro g hg
      rcases List.mem_append.1 hg with hg | hg
      · exact (e4 g hg).1
      · rw [List.mem_singleton.1 hg]
        exact hgne
    · rw [List.flatten_append, ← e5]
      simp

/-!
## Blank input and block structure of `chunk_by_sections`
-/

lemma pySplitLinesAux_mem :
    ∀ (l acc x : List Char), x ∈ pySplitLinesAux l acc → ∀ c ∈ x, c ∈ l ∨ c ∈ acc := by
  intro l
  induction l with
  | nil =>
    intro acc x hx c hc
    rw [pySplitLinesAux] at hx
    rw [List.mem_singleton.1 hx] at hc
    right
    exact List.mem_reverse.1 hc
  | cons d rest ih =>
    intro acc x hx c hc
    rw [pySplitLinesAux] at hx
    by_cases hd : d = '\n'
    · rw [if_pos hd] at hx
      rcases List.mem_cons.1 hx with rfl | hx
      · right
        exact List.mem_reverse.1 hc
      · rcases ih [] x hx c hc with h | h
        · left
          exact List.mem_cons_of_mem _ h
        · cases h
    · rw [if_neg hd] at hx
      rcases ih (d :: acc) x hx c hc with h | h
      · left
        exact List.mem_cons_of_mem _ h
      · rcases List.mem_cons.1 h with rfl | h
        · left
          exact List.mem_cons_self _ _
        · right
          exact h

lemma sectionFold_blank {M O : Nat} {ms : List (List Char)} :
    ∀ (ls : List (List Char)) (st : List SectionChunk × List Char × List Char),
      (∀ l ∈ ls, pystrip l = []) → ls.foldl (sectionStep M O ms) st = st := by
  intro ls
  induction ls with
  | nil =>
    intro st _
    rfl
  | cons l rest ih =>
    intro st h
    obtain ⟨chunks, title, sec⟩ := st
    rw [List.foldl_cons, sectionStep_eq, if_pos (h l (by simp))]
    exact ih _ (fun x hx => h x (by simp [hx]))

lemma chunkBySections_all_space {M O : Nat} {markers : Option (List (List Char))}
    {text : List Char} (h : ∀ c ∈ text, isPySpace c) :
    chunkBySections M O markers text = [] := by
  have hlines : ∀ l ∈ pySplitLines text, pystrip l = [] := by
    intro l hl
    apply pystrip_eq_nil_iff.2
    intro c hc
    rcases pySplitLinesAux_mem text [] l hl c hc with h1 | h1
    · exact h c h1
    · cases h1
  rw [chunkBySections_eq, sectionFold_blank (pySplitLines text) _ hlines]
  rfl

lemma chunkBySections_blocks (M O : Nat) (markers : Option (List (List Char)))
    (text : List Char) :
    ∃ bs, (∀ b ∈ bs, b.1.length ≤ 100 ∧ b.2 ≠ []) ∧
      chunkBySections M O markers text = sectionBlocks bs := by
  have hinv := foldl_inv (sectionStep M O (markers.getD defaultMarkers))
    (fun st => (∃ bs, (∀ b ∈ bs, b.1.length ≤ 100 ∧ b.2 ≠ []) ∧ st.1 = sectionBlocks bs) ∧
      st.2.1.length ≤ 100)
    (fun _ => True)
    (fun _ _ _ hst => sectionStep_blocks hst)
    (pySplitLines text) ([], chars "Introduction", [])
    (fun _ _ => trivial)
    ⟨⟨[], fun b hb => absurd hb (List.not_mem_nil b), rfl⟩, by decide⟩
  obtain ⟨⟨bs, hbs, hchunks⟩, htitle⟩ := hinv
  rw [chunkBySections_eq]
  split_ifs with h2
  · exact ⟨bs, hbs, hchunks⟩
  · obtain ⟨bs', hbs', hch'⟩ := blocks_extend hbs hchunks htitle
    exact ⟨bs', hbs', hch'⟩

/-!
## Claim theorems
-/

/-- Claim C1, amended.  The chunk-size bound of `chunk_by_sentences` is off
by one and ignores overlap seeding: with chunk size `M`, overlap `O`, and
every stripped sentence of the input of length at most `L`, every produced
chunk has length at most `max (M + 1) (O + 1 + L)`.  (The claimed bound
`M`, with the lone-oversized-sentence exception, fails because the joining
space is not counted by the size check, and because an overlap-seeded
chunk starts at up to `O + 1` characters beyond its first sentence.) -/
theorem C1_chunk_length_bound (M O L : Nat) (text : List Char)
    (h : ∀ s ∈ cleanSentences text, s.length ≤ L) :
    ∀ c ∈ chunkBySentences M O text, c.length ≤ max (M + 1) (O + 1 + L) := by
  have hQ : ∀ s ∈ splitSentences text, (pystrip s).length ≤ L := by
    intro s hs
    by_cases h0 : pystrip s = []
    · simp [h0]
    · exact h _ (List.mem_filter.2 ⟨List.mem_map_of_mem _ hs, by simpa using h0⟩)
  have hinv := foldl_inv (sentenceStep M O)
    (fun st => (∀ c ∈ st.1, c.length ≤ max (M + 1) (O + 1 + L)) ∧
               st.2.length ≤ max (M + 1) (O + 1 + L))
    (fun s => (pystrip s).length ≤ L)
    (fun _ _ hq hst => sentenceStep_len_inv hq hst)
    (splitSentences text) ([], []) hQ
    ⟨fun c hc => absurd hc (List.not_mem_nil c), by simp⟩
  intro c hc
  rw [chunkBySentences_eq] at hc
  split_ifs at hc with h2
  · exact hinv.1 c hc
  · rcases List.mem_append.1 hc with hc | hc
    · exact hinv.1 c hc
    · rw [List.mem_singleton.1 hc]
      exact le_trans (pystrip_length_le _) hinv.2

/-- Claim C1, counterexample to the original bound: with chunk size 3 and
overlap 0 on "A. XY", no single sentence exceeds 3 characters, yet the
produced chunk "A XY" has length 4 > 3 (the joining space is not counted
by the `len(current_chunk) + len(sentence) > chunk_size` check). -/
theorem C1_counterexample :
    (∀ s ∈ cleanSentences (chars "A. XY"), s.length ≤ 3) ∧
    ∃ c ∈ chunkBySentences 3 0 (chars "A. XY"), 3 < c.length := by
  decide

theorem C1_witness :
    (∀ s ∈ cleanSentences (chars "A. XY"), s.length ≤ 2) ∧
    ∀ c ∈ chunkBySentences 3 0 (chars "A. XY"), c.length ≤ max (3 + 1) (0 + 1 + 2) :=
  ⟨by decide, C1_chunk_length_bound 3 0 2 (chars "A. XY") (by decide)⟩

/-- Claim C2, amended.  For overlap `O > 0`, any two consecutive chunks
`a, b` produced by `chunk_by_sentences` (all pairs, not only from index 1)
satisfy: some nonempty prefix of `b` of length `k ≤ O` equals the suffix
of `a` of the same length.  The full first-`O`-characters property of the
original claim fails when the `O`-character overlap window starts with
whitespace (which the chunk-level `strip()` removes) or reaches past the
start of the previous buffer. -/
theorem C2_overlap_chain (M O : Nat) (text : List Char) (hO : 0 < O) :
    List.Chain' (overlapRel O) (chunkBySentences M O text) :=
  chunkBySentences_chain hO text

set_option maxHeartbeats 2000000 in
/-- Claim C2, counterexample to the original statement: with chunk size 5
and overlap 2 on "ab. c. dd. e. fff. gg" (no sentence longer than 5), the
chunks are ["ab c", "c dd", "dd e", "e fff", "ff gg"]; at i = 2 ≥ 1 the
first 2 characters of chunk 3 ("e ") differ from the last 2 characters of
chunk 2 (" e"): the overlap window " e" lost its leading space to
`strip()`. -/
theorem C2_counterexample :
    (∀ s ∈ cleanSentences (chars "ab. c. dd. e. fff. gg"), s.length ≤ 5) ∧
    chunkBySentences 5 2 (chars "ab. c. dd. e. fff. gg") =
      [chars "ab c", chars "c dd", chars "dd e", chars "e fff", chars "ff gg"] ∧
    ((chunkBySentences 5 2 (chars "ab. c. dd. e. fff. gg")).getD 3 []).take 2 ≠
      lastN 2 ((chunkBySentences 5 2 (chars "ab. c. dd. e. fff. gg")).getD 2 []) := by
  decide

set_option maxHeartbeats 2000000 in
theorem C2_witness :
    0 < 2 ∧ List.Chain' (overlapRel 2) (chunkBySentences 5 2 (chars "ab. c. dd. e. fff. gg")) :=
  ⟨by decide, C2_overlap_chain 5 2 (chars "ab. c. dd. e. fff. gg") (by decide)⟩

/-- Claim C3, amended.  `chunk_by_sentences("A. B. C.", 3, 0)` splits on
runs of '.', '!' or '?' followed by whitespace, trims whitespace and drops
empty pieces — but the matched delimiter (punctuation and whitespace) is
consumed, so the sentences are ["A", "B", "C."] and the chunks are
["A B", "C."], each of length at most 3; the first chunk is "A B", not
"A.".  Trailing punctuation not followed by whitespace (the final "C.")
is retained. -/
theorem C3_example_eval :
    splitSentences (chars "A. B. C.") = [chars "A", chars "B", chars "C."] ∧
    chunkBySentences 3 0 (chars "A. B. C.") = [chars "A B", chars "C."] ∧
    (∀ c ∈ chunkBySentences 3 0 (chars "A. B. C."), c.length ≤ 3) ∧
    cleanSentences (chars " A.  B. ") = [chars "A", chars "B"] := by
  decide

/-- Claim C3, counterexample to the original wording: the first chunk of
`chunk_by_sentences("A. B. C.", 3, 0)` is not "A." — the sentence
punctuation before whitespace is consumed by the delimiter, not
retained. -/
theorem C3_counterexample :
    (chunkBySentences 3 0 (chars "A. B. C.")).head? ≠ some (chars "A.") := by
  decide

/-- Claim C4.  For every non-empty text, the chunks of
`chunk_by_sentences` decompose as injected overlap prefixes `ps` plus
space-joins of consecutive nonempty sentence groups `gs` (the first prefix
empty), and concatenating the groups — i.e. removing the injected overlap
spans — recovers exactly the stripped nonempty sentences of the sentence
split, in order. -/
theorem C4_overlap_reconstruction (M O : Nat) (text : List Char) (_htext : text ≠ []) :
    ∃ ps gs, chunkBySentences M O text = List.zipWith overlapGroup ps gs ∧
      ps.length = gs.length ∧ (ps.head? = none ∨ ps.head? = some []) ∧
      (∀ g ∈ gs, g ≠ []) ∧ gs.flatten = cleanSentences text :=
  chunkBySentences_groups M O text

theorem C4_witness :
    chars "A. B" ≠ [] ∧
    ∃ ps gs, chunkBySentences 4 0 (chars "A. B") = List.zipWith overlapGroup ps gs ∧
      ps.length = gs.length ∧ (ps.head? = none ∨ ps.head? = some []) ∧
      (∀ g ∈ gs, g ≠ []) ∧ gs.flatten = cleanSentences (chars "A. B") :=
  ⟨by decide, C4_overlap_reconstruction 4 0 (chars "A. B") (by decide)⟩

/-- Claim C5.  If no (stripped) line of the text is detected as a heading
by the default markers or the numeric-dot pattern, and some line is
non-blank, then `chunk_by_sections` produces exactly the single
"Introduction" section: its records are precisely the sentence-chunks of
the accumulated body, the output is nonempty, and every record carries
section_title "Introduction". -/
theorem C5_sections_no_header (M O : Nat) (text : List Char)
    (h1 : ∀ l ∈ pySplitLines text, isHeaderLine defaultMarkers (pystrip l) = false)
    (h2 : ∃ l ∈ pySplitLines text, pystrip l ≠ []) :
    chunkBySections M O none text =
      mkSectionRecords (chars "Introduction") (chunkBySentences M O (introBody text)) ∧
    chunkBySections M O none text ≠ [] ∧
    ∀ r ∈ chunkBySections M O none text, r.section_title = chars "Introduction" := by
  have hcl : cleanLines text ≠ [] := by
    obtain ⟨l, hl, hne⟩ := h2
    intro h0
    have hmem : pystrip l ∈ cleanLines text := by
      rw [cleanLines]
      exact List.mem_filter.2 ⟨List.mem_map_of_mem _ hl, by simpa using hne⟩
    rw [h0] at hmem
    cases hmem
  have hbne := introBody_ne hcl
  have hcs : cleanSentences (introBody text) ≠ [] :=
    cleanSentences_ne_nil hbne (introBody_noTrail text)
  have hchne : chunkBySentences M O (introBody text) ≠ [] := chunkBySentences_ne_nil hcs
  have heq := chunkBySections_no_header (M := M) (O := O) h1
  rw [if_neg hbne] at heq
  refine ⟨heq, ?_, ?_⟩
  · rw [heq]
    intro h0
    apply hchne
    have hlen := congrArg List.length h0
    rw [mkSectionRecords_length] at hlen
    exact List.length_eq_zero.1 (by simpa using hlen)
  · intro r hr
    rw [heq] at hr
    exact (mkSectionRecords_mem hr).1

theorem C5_witness :
    (∀ l ∈ pySplitLines (chars "hello world"),
      isHeaderLine defaultMarkers (pystrip l) = false) ∧
    (∃ l ∈ pySplitLines (chars "hello world"), pystrip l ≠ []) ∧
    (chunkBySections 10 0 none (chars "hello world") =
      mkSectionRecords (chars "Introduction")
        (chunkBySentences 10 0 (introBody (chars "hello world"))) ∧
    chunkBySections 10 0 none (chars "hello world") ≠ [] ∧
    ∀ r ∈ chunkBySections 10 0 none (chars "hello world"),
      r.section_title = chars "Introduction") :=
  ⟨by decide, by decide,
   C5_sections_no_header 10 0 (chars "hello world") (by decide) (by decide)⟩

/-- Claim C6.  For the file "PPT-42-Jan2024.pdf" in directory "SEBI",
`extract_metadata` returns source "SEBI", category "PPT", ppt_id 42 (the
digits after "PPT-") and date "Jan2024" (the month-abbreviation-plus-year
token found in the filename). -/
theorem C6_ppt_metadata :
    (extract_metadata (chars "SEBI") (chars "PPT-42-Jan2024.pdf")).source = chars "SEBI" ∧
    (extract_metadata (chars "SEBI") (chars "PPT-42-Jan2024.pdf")).category = chars "PPT" ∧
    (extract_metadata (chars "SEBI") (chars "PPT-42-Jan2024.pdf")).ppt_id = some 42 ∧
    (extract_metadata (chars "SEBI") (chars "PPT-42-Jan2024.pdf")).date =
      some (chars "Jan2024") := by
  decide

/-- Claim C7.  For any path whose parent directory name is not RBI, SEBI
or AMFI (case-insensitively), `extract_metadata` keeps the defaults:
category "Other" and topic = filename stem with '_' and '-' replaced by
spaces. -/
theorem C7_default_metadata (folder name : List Char)
    (h1 : pyUpper folder ≠ chars "RBI") (h2 : pyUpper folder ≠ chars "SEBI")
    (h3 : pyUpper folder ≠ chars "AMFI") :
    (extract_metadata folder name).category = chars "Other" ∧
    (extract_metadata folder name).topic =
      replAll '-' ' ' (replAll '_' ' ' (pyStem name)) := by
  rw [extract_metadata_default h1 h2 h3]
  exact ⟨rfl, rfl⟩

theorem C7_witness :
    pyUpper (chars "docs") ≠ chars "RBI" ∧
    (extract_metadata (chars "docs") (chars "my_file-v2.txt")).category = chars "Other" ∧
    (extract_metadata (chars "docs") (chars "my_file-v2.txt")).topic =
      replAll '-' ' ' (replAll '_' ' ' (pyStem (chars "my_file-v2.txt"))) :=
  ⟨by decide,
   C7_default_metadata (chars "docs") (chars "my_file-v2.txt")
     (by decide) (by decide) (by decide)⟩

/-- Claim C8.  The chunkers are total and return empty output on empty or
all-whitespace input (the empty string, whitespace-only text, blank
lines), and `extract_metadata` falls back to the full default record when
no source heuristic matches; no failure path exists (all embedded
functions are total). -/
theorem C8_no_failure (M O : Nat) (markers : Option (List (List Char))) :
    chunkBySentences M O (chars "") = [] ∧
    chunkBySections M O markers (chars "") = [] ∧
    (∀ text, (∀ c ∈ text, isPySpace c) →
      chunkBySentences M O text = [] ∧ chunkBySections M O markers text = []) ∧
    (∀ folder name, pyUpper folder ≠ chars "RBI" → pyUpper folder ≠ chars "SEBI" →
      pyUpper folder ≠ chars "AMFI" →
      extract_metadata folder name = defaultMetadata folder name) := by
  refine ⟨?_, ?_, ?_, ?_⟩
  · exact chunkBySentences_all_space (by decide)
  · exact chunkBySections_all_space (by decide)
  · intro text h
    exact ⟨chunkBySentences_all_space h, chunkBySections_all_space h⟩
  · intro folder name h1 h2 h3
    exact extract_metadata_default h1 h2 h3

theorem C8_witness :
    chunkBySentences 7 3 (chars "") = [] ∧
    (∀ c ∈ chars " \n\t ", isPySpace c) ∧
    chunkBySections 7 3 none (chars " \n\t ") = [] ∧
    extract_metadata (chars "notes") (chars "x_y.txt") =
      defaultMetadata (chars "notes") (chars "x_y.txt") :=
  ⟨(C8_no_failure 7 3 none).1, by decide,
   ((C8_no_failure 7 3 none).2.2.1 (chars " \n\t ") (by decide)).2,
   (C8_no_failure 7 3 none).2.2.2 (chars "notes") (chars "x_y.txt")
     (by decide) (by decide) (by decide)⟩

/-- Claim C9.  `extract_metadata` is total (a total function in this
embedding) and on every input returns a record with exactly the eight
fields of `Metadata`; page_number is always None, filename always equals
the path's final component, and source always equals the parent directory
name upper-cased. -/
theorem C9_metadata_fields (folder name : List Char) :
    (extract_metadata folder name).page_number = none ∧
    (extract_metadata folder name).filename = name ∧
    (extract_metadata folder name).source = pyUpper folder :=
  extract_metadata_fields folder name

/-- Claim C10.  For every text and marker set, the output of
`chunk_by_sections` is a concatenation of per-section blocks: each block
has one title of length at most 100 and enumerates a nonempty chunk list
with chunk_index running 0 .. total_chunks - 1 in order; consequently
every record satisfies 0 ≤ chunk_index < total_chunks, total_chunks ≥ 1
and section_title of length at most 100. -/
theorem C10_section_record_invariants (M O : Nat) (markers : Option (List (List Char)))
    (text : List Char) :
    (∀ r ∈ chunkBySections M O markers text,
        r.chunk_index < r.total_chunks ∧ 1 ≤ r.total_chunks ∧
        r.section_title.length ≤ 100) ∧
    ∃ bs, (∀ b ∈ bs, b.1.length ≤ 100 ∧ b.2 ≠ []) ∧
      chunkBySections M O markers text = sectionBlocks bs := by
  obtain ⟨bs, hbs, hch⟩ := chunkBySections_blocks M O markers text
  refine ⟨?_, bs, hbs, hch⟩
  intro r hr
  rw [hch, sectionBlocks] at hr
  obtain ⟨l, hl, hrl⟩ := List.mem_flatten.1 hr
  obtain ⟨b, hb, rfl⟩ := List.mem_map.1 hl
  obtain ⟨ht, htot, hidx⟩ := mkSectionRecords_mem hrl
  have hb2 := hbs b hb
  refine ⟨?_, ?_, ?_⟩
  · rw [htot]
    exact hidx
  · rw [htot]
    exact List.length_pos.2 hb2.2
  · rw [ht]
    exact hb2.1

end FinAI
